import Mathlib

/-!
# Verification of the glob-style pattern matcher (`src/patternMatch.cpp`)

A shallow embedding of the pattern compiler (`SimpleStateMachine::setPattern`),
the matcher (`SimpleStateMachine::match` / `tryMatchPatternPart`) and the
caller-side normalisation (`standardizePattern`), followed by theorems about
the embedded definitions.

Conventions of the embedding:
* C++ `std::string` becomes `List Char`; `std::string::operator[]` at position
  `size()` returns the null character in C++11, which `strIndex` models with a
  `'\0'` default.
* node references are `Int`, exactly as the C++ `int` indices, with the two
  negative sentinels `ERROR_NODE_IDX = -1` and `SUCCESS_NODE_IDX = -2`.
* the recursive matcher is given an explicit recursion budget (`fuel`) so that
  it is structurally recursive and kernel-computable; `tryMatchPatternPart`
  fixes the budget at `path.length + 2`, and the fuel-irrelevance theorem below
  shows any budget of at least that size computes the same answer, which is the
  C++ function's termination/depth bound.
-/

def ERROR_NODE_IDX : Int := -1
def SUCCESS_NODE_IDX : Int := -2

def PATH_SEPARATOR : Char := '/'
def END_OF_LINE : Char := Char.ofNat 0

/-- Model of `str[pos]` as C++11 reads it inside the program: positions `0 ≤ pos < size`
give the stored character and position `size` gives the null character.  (The
program never reads past `size`: `tryMatchPatternPart` guards with
`pathPos > path.length()` and the compiler loop guards with
`patternPos < pattern.length()`.) -/
def strIndex (s : List Char) (pos : Nat) : Char :=
  s.getD pos END_OF_LINE

/-- Model of `symbolIs(str, pos, c)`: bounds-checked character test.  Note the C++ check
is `pos < 0 || pos > str.length()`, so position `length` is allowed and reads
the null character. -/
def symbolIs (s : List Char) (pos : Int) (c : Char) : Bool :=
  if pos < 0 || pos > (s.length : Int) then false
  else strIndex s pos.toNat == c

/-- Model of `standardizePathSeparators`: replace every backslash by a forward slash. -/
def standardizePathSeparators (s : List Char) : List Char :=
  s.map fun c => if c = '\\' then '/' else c

/-- Model of `standardizePattern`.  Note, exactly as in the source: `len` is the length
of the pattern BEFORE the prefix is possibly prepended, and the trailing-slash
test afterwards indexes the (possibly already prefixed) pattern with `len - 1`. -/
def standardizePattern (pattern : List Char) : List Char :=
  let len : Int := pattern.length
  let pattern1 :=
    if !(symbolIs pattern 0 PATH_SEPARATOR) then
      if symbolIs pattern 0 '*' && symbolIs pattern 1 '*' then
        '/' :: pattern
      else
        '/' :: '*' :: '*' :: '/' :: pattern
    else pattern
  if symbolIs pattern1 (len - 1) PATH_SEPARATOR then
    pattern1 ++ ['*', '*']
  else pattern1

/-- The `SymbolType` enum; the constructor order carries the C++ enum values
`0,1,2,3` used by `compare_edges_priority`. -/
inductive SymbolType where
  | eOneSymbol
  | eEndOfLine
  | eAnyPathSegmentSymbol
  | eAnySymbol
deriving DecidableEq, Repr

/-- The underlying integer value of the enum constant. -/
def SymbolType.rank : SymbolType → Nat
  | .eOneSymbol => 0
  | .eEndOfLine => 1
  | .eAnyPathSegmentSymbol => 2
  | .eAnySymbol => 3

structure InputSymbol where
  stype : SymbolType
  sym : Char
deriving DecidableEq, Repr

/-- Model of `InputSymbol::match`.  The C++ `switch` is exhaustive over the four enum
constants (the `default: throw` branch is unreachable for values of the
enum type, which the closed inductive type captures). -/
def InputSymbol.matchSymbol (i : InputSymbol) (s : Char) : Bool :=
  match i.stype with
  | .eOneSymbol => s == i.sym
  | .eEndOfLine => s == END_OF_LINE
  | .eAnySymbol => true
  | .eAnyPathSegmentSymbol => s != PATH_SEPARATOR && s != END_OF_LINE

structure Edge where
  symbol : InputSymbol
  nextNodeId : Int
deriving DecidableEq, Repr

/-- Model of `Node::compare_edges_priority`: strict comparison of the enum values. -/
def compare_edges_priority (e1 e2 : Edge) : Bool :=
  e1.symbol.stype.rank < e2.symbol.stype.rank

/-- Insert an edge into an already priority-sorted edge list, after every edge
of smaller-or-equal priority.  `Node::addEdge` does `push_back` followed by
`std::sort(compare_edges_priority)`; on a list that is already sorted this is
exactly the stable insertion below (the new element is last among its equals,
so a stable re-sort keeps it after them).  The edge list of every node is only
ever built through this function, so it is sorted at all times. -/
def insertEdgeSorted (e : Edge) : List Edge → List Edge
  | [] => [e]
  | x :: xs =>
    if compare_edges_priority e x then e :: x :: xs
    else x :: insertEdgeSorted e xs

structure Node where
  edges : List Edge
deriving DecidableEq, Repr

/-- Model of `Node::addEdge(InputSymbol, int)`. -/
def Node.addEdge (n : Node) (sym : InputSymbol) (nodeId : Int) : Node :=
  ⟨insertEdgeSorted ⟨sym, nodeId⟩ n.edges⟩

/-- Model of `Node::addEdge(const char, int)`: builds an `eOneSymbol` edge. -/
def Node.addEdgeChar (n : Node) (c : Char) (nodeId : Int) : Node :=
  n.addEdge ⟨.eOneSymbol, c⟩ nodeId

/-- Replace the element at an index of a list (out-of-range index: no change). -/
def modifyNode : List Node → Nat → (Node → Node) → List Node
  | [], _, _ => []
  | n :: ns, 0, f => f n :: ns
  | n :: ns, i + 1, f => n :: modifyNode ns i f

/-- The `SimpleStateMachine` state: its `nodesArray`. -/
structure SM where
  nodesArray : List Node
deriving DecidableEq, Repr

/-- Lookup `nodesArray[i]` for a node reference; all reads in the program are at
indices `0 ≤ i < nodesArray.size()` (see the edge-target validity theorem), so
the empty-node default is never observed on compiled graphs. -/
def SM.nodeAt (sm : SM) (i : Int) : Node :=
  if 0 ≤ i then sm.nodesArray.getD i.toNat ⟨[]⟩ else ⟨[]⟩

/-- Model of `SimpleStateMachine::lastNodeIdx`. -/
def SM.lastNodeIdx (sm : SM) : Int :=
  (sm.nodesArray.length : Int) - 1

/-- Model of `SimpleStateMachine::createNewNode`: push an empty node, return its index
(the old size). -/
def SM.createNewNode (sm : SM) : SM × Int :=
  (⟨sm.nodesArray ++ [⟨[]⟩]⟩, (sm.nodesArray.length : Int))

/-- Model of `SimpleStateMachine::addEdge(int, InputSymbol, int)`: mutate the node at
`fromNodeIdx`.  Every call site passes a valid non-negative index. -/
def SM.addEdge (sm : SM) (fromNodeIdx : Int) (sym : InputSymbol) (toNodeIdx : Int) : SM :=
  if 0 ≤ fromNodeIdx then
    ⟨modifyNode sm.nodesArray fromNodeIdx.toNat (fun n => n.addEdge sym toNodeIdx)⟩
  else sm

/-- Model of `SimpleStateMachine::addEdge(int, const char, int)`. -/
def SM.addEdgeChar (sm : SM) (fromNodeIdx : Int) (c : Char) (toNodeIdx : Int) : SM :=
  sm.addEdge fromNodeIdx ⟨.eOneSymbol, c⟩ toNodeIdx

/-- The body of the `for (patternPos...)` loop of `setPattern`, as a recursion
on the number of remaining loop iterations (`fuel`).  Every iteration of the
C++ loop advances `patternPos` by at least 1 (by 3 or 4 when it skips over
`**` or `**/`), so `pattern.length` iterations always suffice and the fuel
never runs out before the loop condition `patternPos < pattern.length()`
turns false. -/
def setPatternLoop (pattern : List Char) : Nat → Nat → Int → SM → SM
  | 0, _, _, sm => sm
  | fuel + 1, patternPos, previousStarNodeIdx, sm =>
    if patternPos < pattern.length then
      let sym := strIndex pattern patternPos
      if sym = PATH_SEPARATOR then
        let currentNodeIdx := sm.lastNodeIdx
        let created := sm.createNewNode
        let sm1 := created.1
        let nextNodeIdx := created.2
        let sm2 := sm1.addEdgeChar currentNodeIdx PATH_SEPARATOR nextNodeIdx
        if symbolIs pattern ((patternPos : Int) + 1) '*' &&
           symbolIs pattern ((patternPos : Int) + 2) '*' then
          let sm3 := sm2.addEdge nextNodeIdx ⟨.eAnySymbol, Char.ofNat 0⟩ nextNodeIdx
          if symbolIs pattern ((patternPos : Int) + 3) PATH_SEPARATOR then
            setPatternLoop pattern fuel (patternPos + 4) nextNodeIdx sm3
          else
            setPatternLoop pattern fuel (patternPos + 3) nextNodeIdx sm3
        else
          setPatternLoop pattern fuel (patternPos + 1) (-1) sm2
      else if sym = '?' then
        let currentNodeIdx := sm.lastNodeIdx
        let created := sm.createNewNode
        let sm1 := created.1
        let nextNodeIdx := created.2
        let sm2 := sm1.addEdge currentNodeIdx ⟨.eAnyPathSegmentSymbol, Char.ofNat 0⟩ nextNodeIdx
        setPatternLoop pattern fuel (patternPos + 1) (-1) sm2
      else if sym = '*' then
        let currentNodeIdx := sm.lastNodeIdx
        let sm1 := sm.addEdge currentNodeIdx ⟨.eAnyPathSegmentSymbol, Char.ofNat 0⟩ currentNodeIdx
        setPatternLoop pattern fuel (patternPos + 1) currentNodeIdx sm1
      else
        let currentNodeIdx := sm.lastNodeIdx
        let created := sm.createNewNode
        let sm1 := created.1
        let nextNodeIdx := created.2
        let sm2 := sm1.addEdgeChar currentNodeIdx sym nextNodeIdx
        let sm3 :=
          if 0 ≤ previousStarNodeIdx then
            sm2.addEdge nextNodeIdx ⟨.eAnyPathSegmentSymbol, Char.ofNat 0⟩ previousStarNodeIdx
          else sm2
        setPatternLoop pattern fuel (patternPos + 1) previousStarNodeIdx sm3
    else sm

/-- Model of `SimpleStateMachine::setPattern` on a fresh machine: empty pattern returns
at once leaving `nodesArray` empty; otherwise push the initial node, run the
scan loop with `previousStarNodeIdx = -1`, and finally add the end-of-line
edge from the last node to the `SUCCESS` sentinel. -/
def setPattern (pattern : List Char) : SM :=
  if pattern.isEmpty then ⟨[]⟩
  else
    let sm0 : SM := ⟨[⟨[]⟩]⟩
    let sm1 := setPatternLoop pattern pattern.length 0 (-1) sm0
    sm1.addEdge sm1.lastNodeIdx ⟨.eEndOfLine, Char.ofNat 0⟩ SUCCESS_NODE_IDX

/-- Model of `SimpleStateMachine::tryMatchPatternPart`, with an explicit recursion
budget.  Each recursive call is at `pathPos + 1`, and any call with
`pathPos > path.length` (or at a sentinel reference) returns without
recursing, so a budget of `path.length + 2 - pathPos` always suffices (proved
below as fuel irrelevance).  The edge loop is the C++
`for (edgeIdx ...) { if (selectEdge(...)) if (tryMatchPatternPart(...)) return true; }`:
try each edge of the current node in stored order, and return true on the
first matching edge whose recursive search succeeds. -/
def tryMatchFuel (sm : SM) (path : List Char) : Nat → Int → Nat → Bool
  | 0, _, _ => false
  | fuel + 1, nodeIdx, pathPos =>
    if nodeIdx == SUCCESS_NODE_IDX then true
    else if nodeIdx == ERROR_NODE_IDX then false
    else if pathPos > path.length then false
    else
      let currentNode := sm.nodeAt nodeIdx
      let sym := strIndex path pathPos
      currentNode.edges.any fun e =>
        e.symbol.matchSymbol sym && tryMatchFuel sm path fuel e.nextNodeId (pathPos + 1)

/-- Model of `tryMatchPatternPart(nodeIdx, path, pathPos)`: the recursion with the
always-sufficient budget `path.length + 2`. -/
def tryMatchPatternPart (sm : SM) (path : List Char) (nodeIdx : Int) (pathPos : Nat) : Bool :=
  tryMatchFuel sm path (path.length + 2) nodeIdx pathPos

/-- Model of `SimpleStateMachine::match`: empty path returns `false` outright (before
the machine is even inspected); an un-compiled machine throws
`std::runtime_error`, modelled by the `Except` error channel; otherwise run
the search from node 0 at position 0. -/
def SM.smMatch (sm : SM) (path : List Char) : Except String Bool :=
  if path.isEmpty then .ok false
  else if sm.nodesArray.isEmpty then .error "no pattern was set for state machine"
  else .ok (tryMatchPatternPart sm path 0 0)

/-- Validity of one edge target with respect to a node count: the target is
either the `SUCCESS` sentinel or an index of a stored node.  (In particular a
valid target is never the `ERROR_NODE_IDX` sentinel `-1`.) -/
def ValidTarget (numNodes : Nat) (t : Int) : Prop :=
  t = SUCCESS_NODE_IDX ∨ (0 ≤ t ∧ t < (numNodes : Int))

instance (numNodes : Nat) (t : Int) : Decidable (ValidTarget numNodes t) := by
  unfold ValidTarget; infer_instance

/-- Every edge of every node of the machine has a valid target. -/
def EdgesValid (sm : SM) : Prop :=
  ∀ n ∈ sm.nodesArray, ∀ e ∈ n.edges,
    ValidTarget sm.nodesArray.length e.nextNodeId

instance (sm : SM) : Decidable (EdgesValid sm) := by
  unfold EdgesValid; infer_instance

/-- No edge of any node of the machine targets the `ERROR` sentinel. -/
def NoErrorTargets (sm : SM) : Prop :=
  ∀ n ∈ sm.nodesArray, ∀ e ∈ n.edges, e.nextNodeId ≠ ERROR_NODE_IDX

/-!
## The state-threaded matcher

In the C++ source, `tryMatchPatternPart` receives the machine (through
`this`) and the path (through `std::string&`) by reference, so any mutation
performed during one call would be visible to the caller and to later calls.
The following definitions make that explicit: each call returns, besides the
boolean, the machine and the path as they stand when the call finishes, and
each recursive call (including each iteration of the edge loop) continues
from the state returned by the previous one.  The source performs no write to
either object during matching — `selectEdge` writes only the caller's local
`nextNodeId`, and `InputSymbol::match` reads — so the theorems below prove
the returned state equals the input state and the boolean agrees with the
pure matcher. -/

/-- The edge loop of `tryMatchPatternPart`, threading machine and path through
each `selectEdge`/recursive-call iteration.  `tryRec` is the recursive call at
the next (smaller) fuel. -/
def edgeLoopSt (tryRec : SM → List Char → Int → Nat → Bool × SM × List Char)
    (sym : Char) (pathPos : Nat) :
    List Edge → SM → List Char → Bool × SM × List Char
  | [], sm, path => (false, sm, path)
  | e :: rest, sm, path =>
    if e.symbol.matchSymbol sym then
      let r := tryRec sm path e.nextNodeId (pathPos + 1)
      if r.1 then r
      else edgeLoopSt tryRec sym pathPos rest r.2.1 r.2.2
    else edgeLoopSt tryRec sym pathPos rest sm path

/-- Version of `tryMatchPatternPart` with the machine and path threaded explicitly. -/
def tryMatchFuelSt : Nat → SM → List Char → Int → Nat → Bool × SM × List Char
  | 0, sm, path, _, _ => (false, sm, path)
  | fuel + 1, sm, path, nodeIdx, pathPos =>
    if nodeIdx == SUCCESS_NODE_IDX then (true, sm, path)
    else if nodeIdx == ERROR_NODE_IDX then (false, sm, path)
    else if pathPos > path.length then (false, sm, path)
    else
      edgeLoopSt (tryMatchFuelSt fuel) (strIndex path pathPos) pathPos
        (sm.nodeAt nodeIdx).edges sm path

/-- Version of `SimpleStateMachine::match` with the machine and path threaded explicitly. -/
def SM.matchSt (sm : SM) (path : List Char) : Except String (Bool × SM × List Char) :=
  if path.isEmpty then .ok (false, sm, path)
  else if sm.nodesArray.isEmpty then .error "no pattern was set for state machine"
  else .ok (tryMatchFuelSt (path.length + 2) sm path 0 0)

/-!
## The specification-side acceptance relation

`Accepts sm path nodeIdx pathPos` holds when some sequence of edge traversals
from the node reference `nodeIdx`, consuming exactly one path character (the
character at the current position, or the end-of-string marker at position
`path.length`) per edge, reaches the `SUCCESS` sentinel.  This is the
spec's description of a match ("there exists some sequence of edge traversals
... that reaches the SUCCESS sentinel"): it constrains which edge may be
taken only by membership in the node's edge list, so it is manifestly
independent of the order in which edges are stored or tried and of any
short-circuiting. -/
inductive Accepts (sm : SM) (path : List Char) : Int → Nat → Prop where
  | success (pathPos : Nat) : Accepts sm path SUCCESS_NODE_IDX pathPos
  | step (nodeIdx : Int) (pathPos : Nat) (e : Edge)
      (hns : nodeIdx ≠ SUCCESS_NODE_IDX) (hne : nodeIdx ≠ ERROR_NODE_IDX)
      (hpos : pathPos ≤ path.length)
      (hmem : e ∈ (sm.nodeAt nodeIdx).edges)
      (hmatch : e.symbol.matchSymbol (strIndex path pathPos) = true)
      (hrec : Accepts sm path e.nextNodeId (pathPos + 1)) :
      Accepts sm path nodeIdx pathPos

/-! ## Soundness and completeness of the fuelled search -/

theorem tryMatchFuel_sound (sm : SM) (path : List Char) :
    ∀ (fuel : Nat) (nodeIdx : Int) (pathPos : Nat),
      tryMatchFuel sm path fuel nodeIdx pathPos = true →
      Accepts sm path nodeIdx pathPos := by
  intro fuel
  induction fuel with
  | zero => intro nodeIdx pathPos h; simp [tryMatchFuel] at h
  | succ fuel ih =>
    intro nodeIdx pathPos h
    by_cases hs : nodeIdx = SUCCESS_NODE_IDX
    · subst hs; exact Accepts.success pathPos
    · by_cases he : nodeIdx = ERROR_NODE_IDX
      · simp [tryMatchFuel, hs, he, ERROR_NODE_IDX, SUCCESS_NODE_IDX] at h
      · by_cases hp : pathPos > path.length
        · simp [tryMatchFuel, hs, he, hp] at h
        · simp only [tryMatchFuel, beq_iff_eq, hs, he, hp, if_false, if_neg,
            List.any_eq_true, Bool.and_eq_true] at h
          obtain ⟨e, hmem, hmatch, hrec⟩ := h
          exact Accepts.step nodeIdx pathPos e hs he (by omega) hmem hmatch
            (ih e.nextNodeId (pathPos + 1) hrec)

theorem tryMatchFuel_complete (sm : SM) (path : List Char)
    {nodeIdx : Int} {pathPos : Nat}
    (h : Accepts sm path nodeIdx pathPos) :
    ∀ fuel : Nat, 1 ≤ fuel → path.length + 2 ≤ fuel + pathPos →
      tryMatchFuel sm path fuel nodeIdx pathPos = true := by
  induction h with
  | success pathPos =>
    intro fuel h1 _
    obtain ⟨fuel, rfl⟩ : ∃ k, fuel = k + 1 := ⟨fuel - 1, by omega⟩
    simp [tryMatchFuel]
  | step nodeIdx pathPos e hns hne hpos hmem hmatch _ ih =>
    intro fuel h1 h2
    obtain ⟨fuel, rfl⟩ : ∃ k, fuel = k + 1 := ⟨fuel - 1, by omega⟩
    have hp : ¬ pathPos > path.length := by omega
    simp only [tryMatchFuel, beq_iff_eq, hns, hne, hp, if_false, if_neg,
      List.any_eq_true, Bool.and_eq_true]
    exact ⟨e, hmem, hmatch, ih fuel (by omega) (by omega)⟩

/-! ## Theorems for the individual claims -/

/-- Claim C1.  For every graph produced by `setPattern` on a non-empty pattern
and every non-empty path, the ordered depth-first search
`tryMatchPatternPart(0, path, 0)` returns true if and only if some sequence of
edge traversals from node 0, consuming one path character (or the end-of-string
marker) per edge, reaches the `SUCCESS` sentinel.  The right-hand side
(`Accepts`) constrains edge choice only by membership in the node's edge list,
so the priority order in which edges are tried and the short-circuit on the
first success never change whether a match is found. -/
theorem tryMatch_iff_exists_accepting_path
    (pattern path : List Char) (hpat : pattern ≠ []) (hpath : path ≠ []) :
    tryMatchPatternPart (setPattern pattern) path 0 0 = true ↔
      Accepts (setPattern pattern) path 0 0 := by
  constructor
  · exact tryMatchFuel_sound (setPattern pattern) path (path.length + 2) 0 0
  · intro h
    exact tryMatchFuel_complete (setPattern pattern) path h (path.length + 2)
      (by omega) (by omega)

theorem tryMatch_iff_exists_accepting_path_witness :
    ('/' :: 'a' :: [] ≠ ([] : List Char)) ∧
      (tryMatchPatternPart (setPattern ('/' :: 'a' :: [])) ('/' :: 'a' :: []) 0 0 = true ↔
        Accepts (setPattern ('/' :: 'a' :: [])) ('/' :: 'a' :: []) 0 0) :=
  ⟨by decide,
   tryMatch_iff_exists_accepting_path ('/' :: 'a' :: []) ('/' :: 'a' :: [])
     (by decide) (by decide)⟩

/-- Claim C2.  The `*` wildcard matches any run, including the empty run, of
characters confined to one path segment: the compiled pattern `"/a*b"` matches
the path `"/ab"`, and does not match the path `"/a/b"` (the `eAnyPathSegmentSymbol`
self-loop never consumes a path separator). -/
theorem star_stays_within_segment :
    (setPattern "/a*b".toList).smMatch "/ab".toList = Except.ok true ∧
    (setPattern "/a*b".toList).smMatch "/a/b".toList = Except.ok false := by
  constructor <;> rfl

/-- Claim C3.  The `**` wildcard after a separator matches any run of characters
across segment boundaries, including zero segments: the compiled pattern
`"/a/**/b"` matches each of `"/a/b"`, `"/a/x/b"` and `"/a/x/y/b"`. -/
theorem doublestar_crosses_segments :
    (setPattern "/a/**/b".toList).smMatch "/a/b".toList = Except.ok true ∧
    (setPattern "/a/**/b".toList).smMatch "/a/x/b".toList = Except.ok true ∧
    (setPattern "/a/**/b".toList).smMatch "/a/x/y/b".toList = Except.ok true := by
  refine ⟨?_, ?_, ?_⟩ <;> rfl

/-- Claim C4.  Backtracking through the literal-after-wildcard back-edge is
correct: the compiled pattern `"/*.txt"` matches `"/a.b.txt"` (the wildcard
consumes dots and the literal suffix is retried), and the compiled pattern
`"/a*a"` matches `"/aaaa"` (after matching the literal the search re-enters
the wildcard loop to consume more characters). -/
theorem wildcard_literal_backtracking :
    (setPattern "/*.txt".toList).smMatch "/a.b.txt".toList = Except.ok true ∧
    (setPattern "/a*a".toList).smMatch "/aaaa".toList = Except.ok true := by
  constructor <;> rfl

/-- Claim C5, counterexample.  The claim says matching with an empty path always
signals a distinct misuse failure and never silently returns the plain
no-match boolean.  But `match` checks `path.empty()` first and returns the
plain boolean `false` outright, before even looking at the machine: on the
compiled pattern `"/a"` and the empty path the call evaluates to `ok false`,
not to an error. -/
theorem empty_path_returns_plain_false :
    (setPattern ('/' :: 'a' :: [])).smMatch [] = Except.ok false := rfl

/-- Claim C5, amended.  A `match` call with an empty path silently returns the plain
no-match boolean `false` (for every machine, compiled or not); `setPattern`
with an empty pattern signals nothing and merely leaves the machine without
nodes, and only a *subsequent* `match` call with a non-empty path then throws
the misuse error `"no pattern was set for state machine"`. -/
theorem empty_inputs_amended :
    (∀ sm : SM, sm.smMatch [] = Except.ok false) ∧
    setPattern [] = ⟨[]⟩ ∧
    (setPattern []).smMatch ('/' :: []) =
      Except.error "no pattern was set for state machine" :=
  ⟨fun _ => rfl, rfl, rfl⟩

/-- Claim C6, code bug.  Function `standardizePattern` captures `len` (the length of the
*original* pattern) before possibly prepending `"/**/"`, and then tests
"ends with separator" as `symbolIs(pattern, len - 1, '/')` on the *modified*
pattern.  For the pattern `"a/"` (separators already unified), which ends with
the separator, the prefixed pattern is `"/**/a/"` and index `len - 1 = 1` holds
`'*'`, so no `"**"` is appended — contradicting the comment in the source
("If the pattern ends with / then ** is automatically appended") and the spec.
Consequently the standardized-and-compiled `"a/"` fails to match the path
`"/a/x"` beneath the directory.  (For patterns already starting with the
separator, such as `"/dir/"`, the length is not stale and the append does
happen, which is also recorded here.) -/
theorem standardizePattern_stale_length :
    standardizePattern ('a' :: '/' :: []) = "/**/a/".toList ∧
    (setPattern (standardizePattern ('a' :: '/' :: []))).smMatch "/a/x".toList =
      Except.ok false ∧
    standardizePattern "/dir/".toList = "/dir/**".toList ∧
    (setPattern (standardizePattern "/dir/".toList)).smMatch
      "/dir/anything/at/all".toList = Except.ok true :=
  ⟨rfl, rfl, rfl, rfl⟩

/-! ## Fuel irrelevance: the recursion budget of the matcher -/

theorem listAny_congr {α : Type} (l : List α) (p q : α → Bool)
    (h : ∀ a ∈ l, p a = q a) : l.any p = l.any q := by
  induction l with
  | nil => rfl
  | cons a l ih =>
    simp only [List.any_cons, h a (by simp), ih fun b hb => h b (by simp [hb])]

theorem tryMatchFuel_congr (sm : SM) (path : List Char) :
    ∀ (f1 f2 : Nat) (nodeIdx : Int) (pathPos : Nat),
      1 ≤ f1 → 1 ≤ f2 →
      path.length + 2 ≤ f1 + pathPos → path.length + 2 ≤ f2 + pathPos →
      tryMatchFuel sm path f1 nodeIdx pathPos = tryMatchFuel sm path f2 nodeIdx pathPos := by
  intro f1
  induction f1 with
  | zero => intro f2 nodeIdx pathPos h1; omega
  | succ f1 ih =>
    intro f2 nodeIdx pathPos _ h2 hs1 hs2
    obtain ⟨f2, rfl⟩ : ∃ k, f2 = k + 1 := ⟨f2 - 1, by omega⟩
    by_cases hs : nodeIdx = SUCCESS_NODE_IDX
    · simp [tryMatchFuel, hs]
    · by_cases he : nodeIdx = ERROR_NODE_IDX
      · simp [tryMatchFuel, hs, he]
      · by_cases hp : pathPos > path.length
        · simp [tryMatchFuel, hs, he, hp]
        · simp only [tryMatchFuel, beq_iff_eq, hs, he, hp, if_false, if_neg]
          apply listAny_congr
          intro e _
          rw [ih f2 e.nextNodeId (pathPos + 1) (by omega) (by omega)
            (by omega) (by omega)]

/-- Claim C8.  The matcher search terminates within a recursion depth bounded by
the path length plus two: each recursive call increases `pathPos` by exactly
one and any call with `pathPos` greater than the path length (or at a sentinel
reference) returns without recursing, so *any* recursion budget `fuel` with
`path.length + 2 ≤ fuel + pathPos` (and at least one step) computes the same
answer as `tryMatchPatternPart`, whose budget is `path.length + 2`.  In other
words the value of the search is already fixed at that bounded depth. -/
theorem tryMatch_fuel_bound (sm : SM) (path : List Char) (nodeIdx : Int)
    (pathPos fuel : Nat) (h1 : 1 ≤ fuel)
    (h2 : path.length + 2 ≤ fuel + pathPos) :
    tryMatchFuel sm path fuel nodeIdx pathPos =
      tryMatchPatternPart sm path nodeIdx pathPos :=
  tryMatchFuel_congr sm path fuel (path.length + 2) nodeIdx pathPos h1
    (by omega) h2 (by omega)

theorem tryMatch_fuel_bound_witness :
    1 ≤ 10 ∧ "/a".toList.length + 2 ≤ 10 + 0 ∧
    tryMatchFuel (setPattern "/a".toList) "/a".toList 10 0 0 =
      tryMatchPatternPart (setPattern "/a".toList) "/a".toList 0 0 :=
  ⟨by decide, by decide,
   tryMatch_fuel_bound (setPattern "/a".toList) "/a".toList 0 0 10
     (by decide) (by decide)⟩

/-! ## The matcher neither mutates the machine nor the path -/

theorem edgeLoopSt_eq (tryRec : SM → List Char → Int → Nat → Bool × SM × List Char)
    (pureRec : SM → List Char → Int → Nat → Bool)
    (hrec : ∀ sm path n p, tryRec sm path n p = (pureRec sm path n p, sm, path))
    (sym : Char) (pathPos : Nat) :
    ∀ (edges : List Edge) (sm : SM) (path : List Char),
      edgeLoopSt tryRec sym pathPos edges sm path =
        ((edges.any fun e =>
            e.symbol.matchSymbol sym && pureRec sm path e.nextNodeId (pathPos + 1)),
          sm, path) := by
  intro edges
  induction edges with
  | nil => intro sm path; rfl
  | cons e rest ih =>
    intro sm path
    by_cases hm : e.symbol.matchSymbol sym = true
    · by_cases hb : pureRec sm path e.nextNodeId (pathPos + 1) = true
      · simp [edgeLoopSt, hrec, hm, hb]
      · simp only [Bool.not_eq_true] at hb
        simp [edgeLoopSt, hrec, hm, hb, ih]
    · simp only [Bool.not_eq_true] at hm
      simp [edgeLoopSt, hm, ih]

theorem tryMatchFuelSt_eq :
    ∀ (fuel : Nat) (sm : SM) (path : List Char) (nodeIdx : Int) (pathPos : Nat),
      tryMatchFuelSt fuel sm path nodeIdx pathPos =
        (tryMatchFuel sm path fuel nodeIdx pathPos, sm, path) := by
  intro fuel
  induction fuel with
  | zero => intro sm path nodeIdx pathPos; rfl
  | succ fuel ih =>
    intro sm path nodeIdx pathPos
    by_cases hs : nodeIdx = SUCCESS_NODE_IDX
    · simp [tryMatchFuelSt, tryMatchFuel, hs]
    · by_cases he : nodeIdx = ERROR_NODE_IDX
      · simp [tryMatchFuelSt, tryMatchFuel, hs, he, ERROR_NODE_IDX, SUCCESS_NODE_IDX]
      · by_cases hp : pathPos > path.length
        · simp [tryMatchFuelSt, tryMatchFuel, hs, he, hp]
        · simp only [tryMatchFuelSt, tryMatchFuel, beq_iff_eq, hs, he, hp,
            if_false, if_neg]
          exact edgeLoopSt_eq (tryMatchFuelSt fuel)
            (fun sm path n p => tryMatchFuel sm path fuel n p) ih _ _ _ _ _

/-- Claim C9.  The `match` operation is deterministic and mutation-free: when a call on
machine `sm` and path `path` yields the boolean `b` together with the
post-call machine `sm2` and path `path2`, then the machine and the path are
unchanged (`sm2 = sm`, `path2 = path`), a second call on that post-call state
yields the same boolean, and the result agrees with the pure matcher
`SM.smMatch`.  (Stated for every machine, hence for every graph produced by
`setPattern`, and the `.ok` hypothesis covers exactly the non-throwing calls,
including every non-empty path on a compiled graph.) -/
theorem match_deterministic_no_mutation (sm : SM) (path : List Char)
    (b : Bool) (sm2 : SM) (path2 : List Char)
    (h : sm.matchSt path = Except.ok (b, sm2, path2)) :
    sm2 = sm ∧ path2 = path ∧
    sm2.matchSt path2 = Except.ok (b, sm2, path2) ∧
    sm.smMatch path = Except.ok b := by
  by_cases hempty : path.isEmpty
  · simp only [SM.matchSt, hempty, if_true, Except.ok.injEq, Prod.mk.injEq] at h
    obtain ⟨hb, hsm, hpath⟩ := h
    subst hb; subst hsm; subst hpath
    exact ⟨rfl, rfl, by simp [SM.matchSt, hempty], by simp [SM.smMatch, hempty]⟩
  · by_cases hnodes : sm.nodesArray.isEmpty
    · simp [SM.matchSt, hempty, hnodes] at h
    · simp only [SM.matchSt, hempty, hnodes, Bool.false_eq_true, if_false,
        tryMatchFuelSt_eq, Except.ok.injEq, Prod.mk.injEq] at h
      obtain ⟨hb, hsm, hpath⟩ := h
      subst hsm; subst hpath
      refine ⟨rfl, rfl, ?_, ?_⟩
      · simp [SM.matchSt, hempty, hnodes, tryMatchFuelSt_eq, ← hb,
          tryMatchPatternPart]
      · simp [SM.smMatch, hempty, hnodes, ← hb, tryMatchPatternPart]

theorem match_deterministic_no_mutation_witness :
    SM.matchSt (setPattern "/a".toList) "/a".toList =
      Except.ok (true, setPattern "/a".toList, "/a".toList) ∧
    (setPattern "/a".toList = setPattern "/a".toList ∧
      "/a".toList = "/a".toList ∧
      SM.matchSt (setPattern "/a".toList) "/a".toList =
        Except.ok (true, setPattern "/a".toList, "/a".toList) ∧
      SM.smMatch (setPattern "/a".toList) "/a".toList = Except.ok true) :=
  ⟨rfl, match_deterministic_no_mutation (setPattern "/a".toList) "/a".toList
    true (setPattern "/a".toList) "/a".toList rfl⟩

/-! ## Validity of edge targets in compiled graphs -/

theorem modifyNode_length (l : List Node) (i : Nat) (f : Node → Node) :
    (modifyNode l i f).length = l.length := by
  induction l generalizing i with
  | nil => rfl
  | cons n ns ih =>
    cases i with
    | zero => rfl
    | succ i => simpa [modifyNode] using ih i

theorem mem_modifyNode {l : List Node} {i : Nat} {f : Node → Node} {n : Node}
    (h : n ∈ modifyNode l i f) : n ∈ l ∨ ∃ m ∈ l, n = f m := by
  induction l generalizing i with
  | nil => simp [modifyNode] at h
  | cons hd tl ih =>
    cases i with
    | zero =>
      rcases (List.mem_cons.mp h) with h1 | h1
      · exact Or.inr ⟨hd, List.mem_cons_self hd tl, h1⟩
      · exact Or.inl (List.mem_cons_of_mem hd h1)
    | succ i =>
      rcases (List.mem_cons.mp h) with h1 | h1
      · exact Or.inl (h1 ▸ List.mem_cons_self hd tl)
      · rcases ih h1 with h2 | ⟨m, hm, hfm⟩
        · exact Or.inl (List.mem_cons_of_mem hd h2)
        · exact Or.inr ⟨m, List.mem_cons_of_mem hd hm, hfm⟩

theorem mem_insertEdgeSorted {e e' : Edge} {l : List Edge}
    (h : e' ∈ insertEdgeSorted e l) : e' = e ∨ e' ∈ l := by
  induction l with
  | nil => simpa [insertEdgeSorted] using h
  | cons x xs ih =>
    simp only [insertEdgeSorted] at h
    by_cases hc : compare_edges_priority e x = true
    · simp only [hc, if_true] at h
      rcases List.mem_cons.mp h with h1 | h1
      · exact Or.inl h1
      · exact Or.inr h1
    · simp only [hc, if_false] at h
      rcases List.mem_cons.mp h with h1 | h1
      · exact Or.inr (h1 ▸ List.mem_cons_self x xs)
      · rcases ih h1 with h2 | h2
        · exact Or.inl h2
        · exact Or.inr (List.mem_cons_of_mem x h2)

theorem mem_addEdge_edges {n : Node} {sym : InputSymbol} {t : Int} {e : Edge}
    (h : e ∈ (n.addEdge sym t).edges) : e = ⟨sym, t⟩ ∨ e ∈ n.edges :=
  mem_insertEdgeSorted h

theorem SM.addEdge_length (sm : SM) (f : Int) (s : InputSymbol) (t : Int) :
    (sm.addEdge f s t).nodesArray.length = sm.nodesArray.length := by
  unfold SM.addEdge
  by_cases hf : (0 : Int) ≤ f
  · simp [hf, modifyNode_length]
  · simp [hf]

theorem SM.createNewNode_length (sm : SM) :
    sm.createNewNode.1.nodesArray.length = sm.nodesArray.length + 1 := by
  simp [SM.createNewNode]

theorem ValidTarget.mono {m m' : Nat} (h : m ≤ m') {t : Int}
    (hv : ValidTarget m t) : ValidTarget m' t := by
  rcases hv with h1 | ⟨h1, h2⟩
  · exact Or.inl h1
  · exact Or.inr ⟨h1, lt_of_lt_of_le h2 (by exact_mod_cast h)⟩

theorem EdgesValid.addEdge {sm : SM} (hv : EdgesValid sm) {f : Int}
    {s : InputSymbol} {t : Int} (ht : ValidTarget sm.nodesArray.length t) :
    EdgesValid (sm.addEdge f s t) := by
  intro n hn e he
  rw [SM.addEdge_length]
  unfold SM.addEdge at hn
  by_cases hf : (0 : Int) ≤ f
  · simp only [hf, if_true] at hn
    rcases mem_modifyNode hn with h1 | ⟨m, hm, hfm⟩
    · exact hv n h1 e he
    · subst hfm
      rcases mem_addEdge_edges he with h2 | h2
      · subst h2; exact ht
      · exact hv m hm e h2
  · simp only [hf, if_false] at hn
    exact hv n hn e he

theorem EdgesValid.createNewNode {sm : SM} (hv : EdgesValid sm) :
    EdgesValid sm.createNewNode.1 := by
  intro n hn e he
  rw [SM.createNewNode_length]
  unfold SM.createNewNode at hn
  simp only [List.mem_append, List.mem_singleton] at hn
  rcases hn with h1 | h1
  · exact (hv n h1 e he).mono (Nat.le_succ _)
  · subst h1; simp at he

theorem setPatternLoop_edgesValid (pattern : List Char) :
    ∀ (fuel patternPos : Nat) (previousStarNodeIdx : Int) (sm : SM),
      EdgesValid sm →
      0 < sm.nodesArray.length →
      (previousStarNodeIdx = -1 ∨
        (0 ≤ previousStarNodeIdx ∧
          previousStarNodeIdx < (sm.nodesArray.length : Int))) →
      EdgesValid (setPatternLoop pattern fuel patternPos previousStarNodeIdx sm) := by
  intro fuel
  induction fuel with
  | zero =>
    intro patternPos star sm hv _ _
    simpa [setPatternLoop] using hv
  | succ fuel ih =>
    intro patternPos star sm hv hpos hstar
    by_cases hlt : patternPos < pattern.length
    · simp only [setPatternLoop, hlt, if_true]
      by_cases hsep : strIndex pattern patternPos = PATH_SEPARATOR
      · simp only [hsep, if_true]
        have hvalid2 : EdgesValid
            (sm.createNewNode.1.addEdgeChar sm.lastNodeIdx PATH_SEPARATOR
              sm.createNewNode.2) := by
          apply EdgesValid.addEdge (EdgesValid.createNewNode hv)
          rw [SM.createNewNode_length]
          refine Or.inr ⟨?_, ?_⟩ <;> simp only [SM.createNewNode] <;> push_cast <;> omega
        have hlen2 : (sm.createNewNode.1.addEdgeChar sm.lastNodeIdx PATH_SEPARATOR
            sm.createNewNode.2).nodesArray.length = sm.nodesArray.length + 1 := by
          unfold SM.addEdgeChar
          rw [SM.addEdge_length, SM.createNewNode_length]
        by_cases hstars : (symbolIs pattern ((patternPos : Int) + 1) '*' &&
            symbolIs pattern ((patternPos : Int) + 2) '*') = true
        · simp only [hstars, if_true]
          have hvalid3 : EdgesValid
              ((sm.createNewNode.1.addEdgeChar sm.lastNodeIdx PATH_SEPARATOR
                sm.createNewNode.2).addEdge sm.createNewNode.2
                ⟨.eAnySymbol, Char.ofNat 0⟩ sm.createNewNode.2) := by
            apply EdgesValid.addEdge hvalid2
            rw [hlen2]
            refine Or.inr ⟨?_, ?_⟩ <;> simp only [SM.createNewNode] <;> push_cast <;> omega
          have hlen3 : ((sm.createNewNode.1.addEdgeChar sm.lastNodeIdx PATH_SEPARATOR
              sm.createNewNode.2).addEdge sm.createNewNode.2
              ⟨.eAnySymbol, Char.ofNat 0⟩ sm.createNewNode.2).nodesArray.length =
              sm.nodesArray.length + 1 := by
            rw [SM.addEdge_length, hlen2]
          have hstar3 : sm.createNewNode.2 = -1 ∨
              (0 ≤ sm.createNewNode.2 ∧
                sm.createNewNode.2 < (((sm.createNewNode.1.addEdgeChar sm.lastNodeIdx
                  PATH_SEPARATOR sm.createNewNode.2).addEdge sm.createNewNode.2
                  ⟨.eAnySymbol, Char.ofNat 0⟩
                  sm.createNewNode.2).nodesArray.length : Int)) := by
            rw [hlen3]
            refine Or.inr ⟨?_, ?_⟩ <;> simp only [SM.createNewNode] <;> push_cast <;> omega
          by_cases hskip : symbolIs pattern ((patternPos : Int) + 3) PATH_SEPARATOR = true
          · simp only [hskip, if_true]
            exact ih _ _ _ hvalid3 (by omega) hstar3
          · simp only [hskip, Bool.false_eq_true, if_false]
            exact ih _ _ _ hvalid3 (by omega) hstar3
        · simp only [hstars, Bool.false_eq_true, if_false]
          exact ih _ _ _ hvalid2 (by omega) (Or.inl rfl)
      · simp only [hsep, if_false]
        by_cases hq : strIndex pattern patternPos = '?'
        · simp only [hq, if_true]
          have hvalid2 : EdgesValid
              (sm.createNewNode.1.addEdge sm.lastNodeIdx
                ⟨.eAnyPathSegmentSymbol, Char.ofNat 0⟩ sm.createNewNode.2) := by
            apply EdgesValid.addEdge (EdgesValid.createNewNode hv)
            rw [SM.createNewNode_length]
            refine Or.inr ⟨?_, ?_⟩ <;> simp only [SM.createNewNode] <;> push_cast <;> omega
          have hlen2 : (sm.createNewNode.1.addEdge sm.lastNodeIdx
              ⟨.eAnyPathSegmentSymbol, Char.ofNat 0⟩
              sm.createNewNode.2).nodesArray.length = sm.nodesArray.length + 1 := by
            rw [SM.addEdge_length, SM.createNewNode_length]
          exact ih _ _ _ hvalid2 (by omega) (Or.inl rfl)
        · simp only [hq, if_false]
          by_cases hst : strIndex pattern patternPos = '*'
          · simp only [hst, if_true]
            have hvalid1 : EdgesValid
                (sm.addEdge sm.lastNodeIdx ⟨.eAnyPathSegmentSymbol, Char.ofNat 0⟩
                  sm.lastNodeIdx) := by
              apply EdgesValid.addEdge hv
              unfold SM.lastNodeIdx
              exact Or.inr ⟨by omega, by omega⟩
            have hlen1 : (sm.addEdge sm.lastNodeIdx
                ⟨.eAnyPathSegmentSymbol, Char.ofNat 0⟩
                sm.lastNodeIdx).nodesArray.length = sm.nodesArray.length := by
              rw [SM.addEdge_length]
            have hstar1 : sm.lastNodeIdx = -1 ∨
                (0 ≤ sm.lastNodeIdx ∧ sm.lastNodeIdx < ((sm.addEdge sm.lastNodeIdx
                  ⟨.eAnyPathSegmentSymbol, Char.ofNat 0⟩
                  sm.lastNodeIdx).nodesArray.length : Int)) := by
              rw [hlen1]
              unfold SM.lastNodeIdx
              exact Or.inr ⟨by omega, by omega⟩
            exact ih _ _ _ hvalid1 (by omega) hstar1
          · simp only [hst, if_false]
            have hvalid2 : EdgesValid
                (sm.createNewNode.1.addEdgeChar sm.lastNodeIdx
                  (strIndex pattern patternPos) sm.createNewNode.2) := by
              apply EdgesValid.addEdge (EdgesValid.createNewNode hv)
              rw [SM.createNewNode_length]
              refine Or.inr ⟨?_, ?_⟩ <;> simp only [SM.createNewNode] <;> push_cast <;> omega
            have hlen2 : (sm.createNewNode.1.addEdgeChar sm.lastNodeIdx
                (strIndex pattern patternPos) sm.createNewNode.2).nodesArray.length =
                sm.nodesArray.length + 1 := by
              unfold SM.addEdgeChar
              rw [SM.addEdge_length, SM.createNewNode_length]
            by_cases hps : (0 : Int) ≤ star
            · simp only [hps, if_true]
              have hstarlt : star < (sm.nodesArray.length : Int) := by
                rcases hstar with h1 | ⟨_, h2⟩
                · omega
                · exact h2
              have hvalid3 : EdgesValid
                  ((sm.createNewNode.1.addEdgeChar sm.lastNodeIdx
                    (strIndex pattern patternPos) sm.createNewNode.2).addEdge
                    sm.createNewNode.2 ⟨.eAnyPathSegmentSymbol, Char.ofNat 0⟩ star) := by
                apply EdgesValid.addEdge hvalid2
                rw [hlen2]
                refine Or.inr ⟨hps, ?_⟩
                push_cast
                omega
              have hlen3 : ((sm.createNewNode.1.addEdgeChar sm.lastNodeIdx
                  (strIndex pattern patternPos) sm.createNewNode.2).addEdge
                  sm.createNewNode.2 ⟨.eAnyPathSegmentSymbol, Char.ofNat 0⟩
                  star).nodesArray.length = sm.nodesArray.length + 1 := by
                rw [SM.addEdge_length, hlen2]
              refine ih _ _ _ hvalid3 (by omega) ?_
              rw [hlen3]
              refine Or.inr ⟨hps, ?_⟩
              push_cast
              omega
            · simp only [hps, if_false]
              refine ih _ _ _ hvalid2 (by omega) ?_
              rcases hstar with h1 | ⟨h1, h2⟩
              · exact Or.inl h1
              · exact absurd h1 hps
    · simpa [setPatternLoop, hlt] using hv

/-- Claim C10.  In every graph produced by `setPattern` on a non-empty pattern,
the `nextNodeId` of every edge is either the `SUCCESS` sentinel or a valid
index into `nodesArray`, and in particular is never the `ERROR` sentinel:
hence in `tryMatchPatternPart` the `nodesArray[nodeIdx]` access is always in
bounds and the branch returning false on `ERROR_NODE_IDX` is unreachable when
matching a compiled graph. -/
theorem compiled_edge_targets_valid (pattern : List Char) (hpat : pattern ≠ []) :
    EdgesValid (setPattern pattern) ∧ NoErrorTargets (setPattern pattern) := by
  have hne : pattern.isEmpty = false := by
    cases pattern with
    | nil => exact absurd rfl hpat
    | cons c cs => rfl
  have hv : EdgesValid (setPattern pattern) := by
    unfold setPattern
    simp only [hne, Bool.false_eq_true, if_false]
    apply EdgesValid.addEdge
    · apply setPatternLoop_edgesValid
      · intro n hn e he
        simp only [List.mem_singleton] at hn
        subst hn
        simp at he
      · simp
      · exact Or.inl rfl
    · exact Or.inl rfl
  refine ⟨hv, ?_⟩
  intro n hn e he
  rcases hv n hn e he with h1 | ⟨h1, _⟩
  · rw [h1]; unfold SUCCESS_NODE_IDX ERROR_NODE_IDX; omega
  · unfold ERROR_NODE_IDX; omega

theorem compiled_edge_targets_valid_witness :
    ('/' :: 'a' :: [] ≠ ([] : List Char)) ∧
    (EdgesValid (setPattern ('/' :: 'a' :: [])) ∧
      NoErrorTargets (setPattern ('/' :: 'a' :: []))) :=
  ⟨by decide, compiled_edge_targets_valid ('/' :: 'a' :: []) (by decide)⟩
